import Mathlib

/-!
Verification of the difficulty codec and block-statistics aggregator of the
miner-bitcoin repository (`src/block_analyzer.py`), shallowly embedded in Lean.

Python integers are arbitrary precision, so they are modelled as `Nat`.
Python floats produced by true division are modelled two ways: as exact
rationals `ℚ` where the claim at hand is insensitive to rounding (error
behaviour, relative order of the code's own collected values), and through
`floatRound`, an exact model of correctly rounded IEEE 754 binary64
division, where the 64-bit precision itself is at stake (underflow can
collapse distinct quotients to the same float).  Python code that can
raise is modelled in the `Except String` monad, the string naming the
Python exception.
-/

/-- A field of a Python dict: it can be absent from the dict, present with
the value `None`, or present with a proper value. -/
inductive DictField (α : Type) where
  | missing
  | null
  | val (a : α)
deriving DecidableEq, Repr

/-- `DictField.get f d` models Python `block.get(key, d)`: a missing key yields
the default `d`, a key set to `None` yields Python `None` (Lean `none`), and
a proper value yields itself. -/
def DictField.get {α : Type} (f : DictField α) (d : α) : Option α :=
  match f with
  | .missing => some d
  | .null => none
  | .val a => some a

/-- A block record as consumed by the aggregator: only the `bits` and `time`
fields are ever read (`bits` a nonnegative integer, `time` a number). -/
structure Block where
  bits : DictField Nat
  time : DictField ℚ
deriving DecidableEq, Repr

/-- Embedding of `BlockAnalyzer.bits_to_target`:
`exponent = bits >> 24`, `mantissa = bits & 0xFFFFFF`,
`target = mantissa * (1 << (8 * (exponent - 3)))`.
In Python a shift by a negative count raises
`ValueError: negative shift count`, which happens exactly when
`exponent < 3`; this is modelled by the `Except.error` branch. -/
def bits_to_target (bits : Nat) : Except String Nat :=
  let exponent := bits >>> 24
  let mantissa := bits &&& 0xFFFFFF
  if exponent < 3 then
    .error "ValueError: negative shift count"
  else
    .ok (mantissa * (1 <<< (8 * (exponent - 3))))

/-- The constant numerator `0xFFFF * 256 ** (0x1D - 3)` of
`bits_to_difficulty` (the maximum target). -/
def max_target : Nat := 0xFFFF * 256 ^ (0x1D - 3)

/-- Embedding of `BlockAnalyzer.bits_to_difficulty`:
`difficulty = 0xFFFF * 256 ** (0x1D - 3) / target`, a Python true division
of integers, which raises `ZeroDivisionError` when `target` is `0`.

This model returns the EXACT value of the quotient.  The Python division
returns that quotient rounded to a 64-bit float; the exact model is
adequate for the claims about error behaviour and about relative order of
the values the aggregator itself collects, while claims sensitive to the
rounding (underflow collapse of distinct quotients to the same float) are
settled against `bits_to_difficulty_float` below. -/
def bits_to_difficulty (bits : Nat) : Except String ℚ := do
  let target ← bits_to_target bits
  if target = 0 then
    .error "ZeroDivisionError: division by zero"
  else
    .ok ((max_target : ℚ) / (target : ℚ))

/-- Round a rational to the nearest integer, ties to even — the rounding
used by IEEE 754 binary64 arithmetic. -/
def rne (x : ℚ) : ℤ :=
  if x - (⌊x⌋ : ℚ) < 1 / 2 then ⌊x⌋
  else if 1 / 2 < x - (⌊x⌋ : ℚ) then ⌊x⌋ + 1
  else if ⌊x⌋ % 2 = 0 then ⌊x⌋ else ⌊x⌋ + 1

/-- The value of a nonnegative rational correctly rounded to an IEEE 754
binary64 float, returned as the exact rational value of that float:
53 significant bits in the normal range (quantum `2^(exponent - 52)`),
gradual underflow below `2^(-1022)` with quantum `2^(-1074)` — so values
below `2^(-1075)` round to `0.0`.  Overflow to infinity is not modelled:
every quotient the codec can produce is at most
`0xFFFF * 2^208 < 2^224 < 2^1024`. -/
def floatRound (q : ℚ) : ℚ :=
  if q ≤ 0 then 0
  else
    ((rne (q / 2 ^ (max (Int.log 2 q) (-1022) - 52)) : ℚ) *
      2 ^ (max (Int.log 2 q) (-1022) - 52))

/-- Embedding of `BlockAnalyzer.bits_to_difficulty` at 64-bit float
precision: CPython's int/int true division returns the correctly rounded
(round to nearest, ties to even) binary64 value of the quotient. -/
def bits_to_difficulty_float (bits : Nat) : Except String ℚ := do
  let target ← bits_to_target bits
  if target = 0 then
    .error "ZeroDivisionError: division by zero"
  else
    .ok (floatRound ((max_target : ℚ) / (target : ℚ)))

/-- The collection loop of `analyze_block_difficulty`:
for each block, `bits = block.get("bits", 0)`; if `bits is not None`,
append `bits_to_difficulty(bits)` (which may raise, aborting the call). -/
def collect_difficulties (blocks : List Block) : Except String (List ℚ) :=
  match blocks with
  | [] => .ok []
  | b :: bs =>
    match b.bits.get 0 with
    | none => collect_difficulties bs
    | some bits => do
      let d ← bits_to_difficulty bits
      let rest ← collect_difficulties bs
      .ok (d :: rest)

/-- The result dict of `analyze_block_difficulty`; a Python `None` entry is
modelled as `Option.none`. -/
structure DifficultySummary where
  current_difficulty : Option ℚ
  average_difficulty : Option ℚ
  min_difficulty : Option ℚ
  max_difficulty : Option ℚ
  trend : String
  difficulties_range : Option (ℚ × ℚ)
deriving DecidableEq, Repr

/-- The trend expression of `analyze_block_difficulty`:
`"increasing" if len(d) > 1 and d[-1] > d[0] else
 "decreasing" if len(d) > 1 and d[-1] < d[0] else "stable"`
(`headD`/`getLastD` defaults are never read: they are guarded by
`1 < length`). -/
def trend_of (difficulties : List ℚ) : String :=
  if 1 < difficulties.length ∧ difficulties.getLastD 0 > difficulties.headD 0 then
    "increasing"
  else if 1 < difficulties.length ∧ difficulties.getLastD 0 < difficulties.headD 0 then
    "decreasing"
  else
    "stable"

/-- Embedding of `BlockAnalyzer.analyze_block_difficulty`. -/
def analyze_block_difficulty (blocks : List Block) :
    Except String DifficultySummary :=
  (collect_difficulties blocks).map fun difficulties =>
    { current_difficulty := difficulties.head?
      average_difficulty :=
        if difficulties.isEmpty then none
        else some (difficulties.sum / (difficulties.length : ℚ))
      min_difficulty := difficulties.min?
      max_difficulty := difficulties.max?
      trend := trend_of difficulties
      difficulties_range :=
        match difficulties.min?, difficulties.max? with
        | some mn, some mx => some (mn, mx)
        | _, _ => none }

/-- The collection loop of `analyze_mining_time`:
for each block, `time = block.get("time", 0)`; if `time is not None`,
append it. -/
def collect_mining_times (blocks : List Block) : List ℚ :=
  match blocks with
  | [] => []
  | b :: bs =>
    match b.time.get 0 with
    | none => collect_mining_times bs
    | some t => t :: collect_mining_times bs

/-- The result dict of `analyze_mining_time`. -/
structure MiningTimeSummary where
  average_mining_time : Option ℚ
  slowest_mining_time : Option ℚ
  fastest_mining_time : Option ℚ
deriving DecidableEq, Repr

/-- Embedding of `BlockAnalyzer.analyze_mining_time`. -/
def analyze_mining_time (blocks : List Block) : MiningTimeSummary :=
  let mining_times := collect_mining_times blocks
  { average_mining_time :=
      if mining_times.isEmpty then none
      else some (mining_times.sum / (mining_times.length : ℚ))
    slowest_mining_time := mining_times.min?
    fastest_mining_time := mining_times.max? }

/-- Trend as the specification words it: compare the last element of the
difficulty sequence to the first, `"increasing"` if last > first,
`"decreasing"` if last < first, `"stable"` otherwise, also when the
sequence has 0 or 1 elements. -/
def trendSpec (ds : List ℚ) : String :=
  match ds.head?, ds.getLast? with
  | some first, some last =>
    if first < last then "increasing"
    else if last < first then "decreasing"
    else "stable"
  | _, _ => "stable"

/-- Claim C1: a block whose dict has no `bits` key is NOT skipped:
`block.get("bits", 0)` yields the default `0`, which is not `None`, so the
code evaluates `bits_to_difficulty(0)`, whose exponent `0 < 3` makes the
shift count negative and the whole call raise `ValueError`.  A block whose
`bits` is `None` is skipped as the spec says. -/
theorem C1_missing_bits_raises :
    analyze_block_difficulty [{ bits := .missing, time := .missing }] =
      .error "ValueError: negative shift count" ∧
    analyze_block_difficulty [{ bits := .null, time := .missing }] =
      .ok ⟨none, none, none, none, "stable", none⟩ := by
  constructor <;> rfl

/-- Claim C2 (counterexample): for `bits = 0x02000100` (exponent 2,
mantissa 256) the claim predicts the value `256 / 2^8 = 1`, but
`bits_to_target` raises `ValueError: negative shift count` and returns no
value at all. -/
theorem C2_counterexample :
    bits_to_target 0x02000100 = .error "ValueError: negative shift count" ∧
    ∀ n : Nat, bits_to_target 0x02000100 ≠ .ok n := by
  have h : bits_to_target 0x02000100 =
      .error "ValueError: negative shift count" := rfl
  refine ⟨h, fun n hn => ?_⟩
  rw [h] at hn
  exact Except.noConfusion hn

/-- Claim C2 (amended): for every `bits` whose exponent `bits >>> 24` is
strictly less than 3, `bits_to_target` raises
`ValueError: negative shift count`; the codec does not support negative
shift amounts. -/
theorem C2_exponent_lt_three_raises (bits : Nat) (h : bits >>> 24 < 3) :
    bits_to_target bits = .error "ValueError: negative shift count" := by
  simp [bits_to_target, h]

/-- Witness for the amended claim C2 at `bits = 0x01ABCDEF`. -/
theorem C2_exponent_lt_three_raises_witness :
    (0x01ABCDEF : Nat) >>> 24 < 3 ∧
    bits_to_target 0x01ABCDEF = .error "ValueError: negative shift count" :=
  ⟨by decide, C2_exponent_lt_three_raises 0x01ABCDEF (by decide)⟩

/-- Claim C4: for every 32-bit `bits` with exponent at least 3,
`bits_to_target bits` returns exactly
`mantissa * 2 ^ (8 * (exponent - 3))`, with no error, overflow or
rounding. -/
theorem C4_bits_to_target_formula (bits : Nat) (_h32 : bits < 2 ^ 32)
    (h : 3 ≤ bits >>> 24) :
    bits_to_target bits =
      .ok ((bits &&& 0xFFFFFF) * 2 ^ (8 * (bits >>> 24 - 3))) := by
  simp [bits_to_target, Nat.not_lt.mpr h, Nat.one_shiftLeft]

/-- Witness for claim C4 at the genesis-block compact target
`bits = 0x1D00FFFF`. -/
theorem C4_bits_to_target_formula_witness :
    (0x1D00FFFF : Nat) < 2 ^ 32 ∧ 3 ≤ (0x1D00FFFF : Nat) >>> 24 ∧
    bits_to_target 0x1D00FFFF =
      .ok ((0x1D00FFFF &&& 0xFFFFFF) *
        2 ^ (8 * ((0x1D00FFFF : Nat) >>> 24 - 3))) :=
  ⟨by decide, by decide,
    C4_bits_to_target_formula 0x1D00FFFF (by decide) (by decide)⟩

/-- Claim C5: whenever `bits` decodes to target `0`, `bits_to_difficulty`
raises `ZeroDivisionError` instead of returning a numeric value. -/
theorem C5_zero_target_raises (bits : Nat)
    (h : bits_to_target bits = .ok 0) :
    bits_to_difficulty bits = .error "ZeroDivisionError: division by zero" := by
  unfold bits_to_difficulty
  rw [h]
  rfl

/-- Witness for claim C5 at `bits = 0x03000000` (mantissa 0, exponent 3). -/
theorem C5_zero_target_raises_witness :
    bits_to_target 0x03000000 = .ok 0 ∧
    bits_to_difficulty 0x03000000 =
      .error "ZeroDivisionError: division by zero" :=
  ⟨rfl, C5_zero_target_raises 0x03000000 rfl⟩

/-- Claim C3: a block whose dict has no `time` key is NOT excluded:
`block.get("time", 0)` yields the default `0`, which is not `None`, so `0`
is appended to the collected timestamps and pollutes the aggregates (the
minimum becomes `0` and the average is dragged down).  A block whose `time`
is `None` is excluded as the spec says. -/
theorem C3_missing_time_included :
    analyze_mining_time [{ bits := .missing, time := .val 1000 },
                         { bits := .missing, time := .missing }] =
      { average_mining_time := some 500,
        slowest_mining_time := some 0,
        fastest_mining_time := some 1000 } ∧
    analyze_mining_time [{ bits := .missing, time := .val 1000 },
                         { bits := .missing, time := .null }] =
      { average_mining_time := some 1000,
        slowest_mining_time := some 1000,
        fastest_mining_time := some 1000 } := by
  constructor
  · simp [analyze_mining_time, collect_mining_times, DictField.get,
      List.min?, List.max?]
    norm_num
  · simp [analyze_mining_time, collect_mining_times, DictField.get,
      List.min?, List.max?]

/-- The code's trend expression agrees, on every difficulty sequence, with
the specification's description: compare last to first, `"stable"` for
sequences of length 0 or 1. -/
theorem trend_of_eq_trendSpec (ds : List ℚ) : trend_of ds = trendSpec ds := by
  match ds with
  | [] => rfl
  | [a] => simp [trend_of, trendSpec]
  | a :: b :: t =>
    obtain ⟨x, hx⟩ : ∃ x, (b :: t).getLast? = some x :=
      ⟨(b :: t).getLast (by simp), List.getLast?_eq_getLast _ (by simp)⟩
    have hlast : (a :: b :: t).getLast? = some x := by
      rw [List.getLast?_cons_cons, hx]
    have hD : (a :: b :: t).getLastD 0 = x := by
      rw [List.getLastD_eq_getLast?, hlast, Option.getD_some]
    have hlen : 1 < (a :: b :: t).length := by simp
    simp only [trend_of, trendSpec, List.head?_cons, hlast, hD,
      List.headD_eq_head?_getD, Option.getD_some, hlen, true_and, gt_iff_lt]

/-- Claim C6: whenever the collection loop yields the difficulty sequence
`ds`, `analyze_block_difficulty` succeeds and its `trend` field is exactly
the spec's last-versus-first comparison on `ds` (`"stable"` for 0 or 1
elements). -/
theorem C6_trend_last_vs_first (blocks : List Block) (ds : List ℚ)
    (hds : collect_difficulties blocks = .ok ds) :
    (analyze_block_difficulty blocks).map DifficultySummary.trend =
      .ok (trendSpec ds) := by
  unfold analyze_block_difficulty
  rw [hds]
  simpa [Except.map] using trend_of_eq_trendSpec ds

/-- Witness for claim C6: a single genesis-target block, whose difficulty
is exactly 1; the trend is `"stable"`. -/
theorem C6_trend_last_vs_first_witness :
    collect_difficulties [{ bits := .val 0x1D00FFFF, time := .missing }] =
      .ok [1] ∧
    (analyze_block_difficulty
        [{ bits := .val 0x1D00FFFF, time := .missing }]).map
      DifficultySummary.trend = .ok (trendSpec [1]) := by
  have hmax : max_target ≠ 0 := by decide
  have hd : bits_to_difficulty 0x1D00FFFF = .ok 1 := by
    have h1 : bits_to_target 0x1D00FFFF = .ok max_target := by rfl
    unfold bits_to_difficulty
    rw [h1]
    show (if max_target = 0 then Except.error "ZeroDivisionError: division by zero"
      else Except.ok ((max_target : ℚ) / (max_target : ℚ))) = Except.ok 1
    rw [if_neg hmax, div_self (Nat.cast_ne_zero.mpr hmax)]
  have h : collect_difficulties [{ bits := .val 0x1D00FFFF, time := .missing }] =
      .ok [1] := by
    simp only [collect_difficulties, DictField.get, hd]
    rfl
  exact ⟨h, C6_trend_last_vs_first _ _ h⟩

/-- Claim C7: when the collected timestamp sequence is nonempty,
`analyze_mining_time` returns `slowest` = the minimum collected timestamp
value, `fastest` = the maximum, and `average` = their arithmetic mean —
min/max of raw timestamps, not inter-block elapsed times. -/
theorem C7_mining_time_min_max_mean (blocks : List Block)
    (h : collect_mining_times blocks ≠ []) :
    ∃ mn mx : ℚ,
      (analyze_mining_time blocks).slowest_mining_time = some mn ∧
      mn ∈ collect_mining_times blocks ∧
      (∀ t ∈ collect_mining_times blocks, mn ≤ t) ∧
      (analyze_mining_time blocks).fastest_mining_time = some mx ∧
      mx ∈ collect_mining_times blocks ∧
      (∀ t ∈ collect_mining_times blocks, t ≤ mx) ∧
      (analyze_mining_time blocks).average_mining_time =
        some ((collect_mining_times blocks).sum /
          ((collect_mining_times blocks).length : ℚ)) := by
  haveI : Std.Antisymm ((· : ℚ) ≤ ·) := ⟨fun h1 h2 => le_antisymm h1 h2⟩
  obtain ⟨mn, hmn⟩ : ∃ mn, (collect_mining_times blocks).min? = some mn := by
    cases hc : collect_mining_times blocks with
    | nil => exact absurd hc h
    | cons a t => exact ⟨_, rfl⟩
  obtain ⟨mx, hmx⟩ : ∃ mx, (collect_mining_times blocks).max? = some mx := by
    cases hc : collect_mining_times blocks with
    | nil => exact absurd hc h
    | cons a t => exact ⟨_, rfl⟩
  have hmin := (List.min?_eq_some_iff (fun a => le_refl a)
    (fun a b => min_choice a b) (fun a b c => le_min_iff)).mp hmn
  have hmax := (List.max?_eq_some_iff (fun a => le_refl a)
    (fun a b => max_choice a b) (fun a b c => max_le_iff)).mp hmx
  refine ⟨mn, mx, ?_, hmin.1, hmin.2, ?_, hmax.1, hmax.2, ?_⟩
  · simpa [analyze_mining_time] using hmn
  · simpa [analyze_mining_time] using hmx
  · simp [analyze_mining_time, List.isEmpty_iff, h]

/-- Witness for claim C7 on the spec's own example, timestamps
`[1000, 1600, 1200]`. -/
theorem C7_mining_time_min_max_mean_witness :
    collect_mining_times
      [{ bits := .missing, time := .val 1000 },
       { bits := .missing, time := .val 1600 },
       { bits := .missing, time := .val 1200 }] ≠ [] ∧
    ∃ mn mx : ℚ,
      (analyze_mining_time
        [{ bits := .missing, time := .val 1000 },
         { bits := .missing, time := .val 1600 },
         { bits := .missing, time := .val 1200 }]).slowest_mining_time = some mn ∧
      mn ∈ collect_mining_times
        [{ bits := .missing, time := .val 1000 },
         { bits := .missing, time := .val 1600 },
         { bits := .missing, time := .val 1200 }] ∧
      (∀ t ∈ collect_mining_times
        [{ bits := .missing, time := .val 1000 },
         { bits := .missing, time := .val 1600 },
         { bits := .missing, time := .val 1200 }], mn ≤ t) ∧
      (analyze_mining_time
        [{ bits := .missing, time := .val 1000 },
         { bits := .missing, time := .val 1600 },
         { bits := .missing, time := .val 1200 }]).fastest_mining_time = some mx ∧
      mx ∈ collect_mining_times
        [{ bits := .missing, time := .val 1000 },
         { bits := .missing, time := .val 1600 },
         { bits := .missing, time := .val 1200 }] ∧
      (∀ t ∈ collect_mining_times
        [{ bits := .missing, time := .val 1000 },
         { bits := .missing, time := .val 1600 },
         { bits := .missing, time := .val 1200 }], t ≤ mx) ∧
      (analyze_mining_time
        [{ bits := .missing, time := .val 1000 },
         { bits := .missing, time := .val 1600 },
         { bits := .missing, time := .val 1200 }]).average_mining_time =
        some ((collect_mining_times
          [{ bits := .missing, time := .val 1000 },
           { bits := .missing, time := .val 1600 },
           { bits := .missing, time := .val 1200 }]).sum /
          ((collect_mining_times
            [{ bits := .missing, time := .val 1000 },
             { bits := .missing, time := .val 1600 },
             { bits := .missing, time := .val 1200 }]).length : ℚ)) := by
  have h : collect_mining_times
      [{ bits := .missing, time := .val 1000 },
       { bits := .missing, time := .val 1600 },
       { bits := .missing, time := .val 1200 }] ≠ [] := by
    simp [collect_mining_times, DictField.get]
  exact ⟨h, C7_mining_time_min_max_mean _ h⟩

/-- Claim C8: when the collected sequence is empty, every summary field of
`analyze_block_difficulty` is `None` (and the call succeeds), and every
field of `analyze_mining_time` is `None`. -/
theorem C8_empty_collection_all_absent (blocks : List Block) :
    (collect_difficulties blocks = .ok [] →
      analyze_block_difficulty blocks =
        .ok ⟨none, none, none, none, "stable", none⟩) ∧
    (collect_mining_times blocks = [] →
      analyze_mining_time blocks = ⟨none, none, none⟩) := by
  constructor
  · intro h
    unfold analyze_block_difficulty
    rw [h]
    rfl
  · intro h
    unfold analyze_mining_time
    rw [h]
    rfl

/-- Witness for claim C8 at the empty input list. -/
theorem C8_empty_collection_all_absent_witness :
    analyze_block_difficulty [] =
      .ok ⟨none, none, none, none, "stable", none⟩ ∧
    analyze_mining_time [] = ⟨none, none, none⟩ :=
  ⟨(C8_empty_collection_all_absent []).1 rfl,
   (C8_empty_collection_all_absent []).2 rfl⟩

/-- Decoding the exponent byte of a compact target built as
`e * 2^24 + m` with a 24-bit mantissa. -/
theorem decode_exponent (e m : Nat) (hm : m < 2 ^ 24) :
    (e * 2 ^ 24 + m) >>> 24 = e := by
  rw [Nat.shiftRight_eq_div_pow, Nat.mul_comm e (2 ^ 24),
    Nat.mul_add_div (by norm_num), Nat.div_eq_of_lt hm, Nat.add_zero]

/-- Decoding the mantissa of a compact target built as `e * 2^24 + m`
with a 24-bit mantissa. -/
theorem decode_mantissa (e m : Nat) (hm : m < 2 ^ 24) :
    (e * 2 ^ 24 + m) &&& 0xFFFFFF = m := by
  have h : (0xFFFFFF : Nat) = 2 ^ 24 - 1 := by norm_num
  rw [h, Nat.and_pow_two_sub_one_eq_mod, Nat.mul_comm e (2 ^ 24),
    Nat.mul_add_mod, Nat.mod_eq_of_lt hm]

/-- The nearest-even rounding never goes below the floor. -/
theorem floor_le_rne (x : ℚ) : ⌊x⌋ ≤ rne x := by
  unfold rne
  split_ifs <;> omega

/-- The nearest-even rounding never exceeds the floor plus one. -/
theorem rne_le_floor_add_one (x : ℚ) : rne x ≤ ⌊x⌋ + 1 := by
  unfold rne
  split_ifs <;> omega

/-- Nearest-even rounding is monotone. -/
theorem rne_monotone {x y : ℚ} (h : x ≤ y) : rne x ≤ rne y := by
  by_cases hf : ⌊x⌋ < ⌊y⌋
  · calc rne x ≤ ⌊x⌋ + 1 := rne_le_floor_add_one x
    _ ≤ ⌊y⌋ := hf
    _ ≤ rne y := floor_le_rne y
  · have hf' : ⌊x⌋ = ⌊y⌋ := le_antisymm (Int.floor_le_floor h) (not_lt.mp hf)
    have hr : x - (⌊x⌋ : ℚ) ≤ y - (⌊y⌋ : ℚ) := by
      rw [hf']
      linarith
    unfold rne
    rw [hf']
    split_ifs <;> first | omega | linarith

/-- Correct binary64 rounding is monotone on positive inputs: a smaller
exact quotient never rounds to a larger float. -/
theorem floatRound_mono {a b : ℚ} (ha : 0 < a) (hab : a ≤ b) :
    floatRound a ≤ floatRound b := by
  have hb : 0 < b := lt_of_lt_of_le ha hab
  have hla : Int.log 2 a ≤ Int.log 2 b := Int.log_mono_right ha hab
  unfold floatRound
  rw [if_neg (not_le.mpr ha), if_neg (not_le.mpr hb)]
  set ea := max (Int.log 2 a) (-1022) with hea
  set eb := max (Int.log 2 b) (-1022) with heb
  have heab : ea ≤ eb := max_le_max hla le_rfl
  have hua : (0:ℚ) < 2 ^ (ea - 52) := zpow_pos (by norm_num) _
  have hub : (0:ℚ) < 2 ^ (eb - 52) := zpow_pos (by norm_num) _
  rcases eq_or_lt_of_le heab with heq | hlt
  · rw [← heq]
    have hdiv : a / 2 ^ (ea - 52) ≤ b / 2 ^ (ea - 52) := by gcongr
    exact mul_le_mul_of_nonneg_right
      (by exact_mod_cast rne_monotone hdiv) (le_of_lt hua)
  · have hebe : eb = Int.log 2 b := by
      rcases max_cases (Int.log 2 b) (-1022 : ℤ) with ⟨h1, _⟩ | ⟨h1, _⟩
      · rw [heb, h1]
      · rw [heb, h1]
        omega
    have h53 : ((2 ^ 53 : ℤ) : ℚ) = (2:ℚ) ^ (53 : ℤ) := by norm_num
    have h52 : ((2 ^ 52 : ℤ) : ℚ) = (2:ℚ) ^ (52 : ℤ) := by norm_num
    have hsplit_a : (2:ℚ) ^ (ea + 1) = 2 ^ (53 : ℤ) * 2 ^ (ea - 52) := by
      rw [← zpow_add₀ (two_ne_zero : (2:ℚ) ≠ 0)]
      congr 1
      omega
    have hsplit_b : (2:ℚ) ^ eb = 2 ^ (52 : ℤ) * 2 ^ (eb - 52) := by
      rw [← zpow_add₀ (two_ne_zero : (2:ℚ) ≠ 0)]
      congr 1
      omega
    have haub : a < 2 ^ (ea + 1) := by
      have h1 : a < (2:ℚ) ^ (Int.log 2 a + 1) := by
        have h2 := Int.lt_zpow_succ_log_self (b := 2) (R := ℚ) (by norm_num) a
        simpa using h2
      have h2 : (2:ℚ) ^ (Int.log 2 a + 1) ≤ 2 ^ (ea + 1) := by
        apply zpow_le_zpow_right₀ (by norm_num)
        have h3 : Int.log 2 a ≤ ea := le_max_left _ _
        omega
      linarith
    have hxa : a / 2 ^ (ea - 52) < ((2 ^ 53 : ℤ) : ℚ) := by
      rw [div_lt_iff₀ hua, h53, ← hsplit_a]
      exact haub
    have hrne_a : rne (a / 2 ^ (ea - 52)) ≤ 2 ^ 53 := by
      have hfl : ⌊a / 2 ^ (ea - 52)⌋ < 2 ^ 53 := Int.floor_lt.mpr hxa
      have h2 := rne_le_floor_add_one (a / 2 ^ (ea - 52))
      omega
    have hFa : (rne (a / 2 ^ (ea - 52)) : ℚ) * 2 ^ (ea - 52) ≤ 2 ^ (ea + 1) := by
      have h1 : (rne (a / 2 ^ (ea - 52)) : ℚ) ≤ ((2 ^ 53 : ℤ) : ℚ) := by
        exact_mod_cast hrne_a
      have h2 := mul_le_mul_of_nonneg_right h1 (le_of_lt hua)
      rw [h53] at h2
      rw [hsplit_a]
      exact h2
    have hble : (2:ℚ) ^ eb ≤ b := by
      rw [hebe]
      have h1 := Int.zpow_log_le_self (b := 2) (R := ℚ) (by norm_num) hb
      simpa using h1
    have hxb : ((2 ^ 52 : ℤ) : ℚ) ≤ b / 2 ^ (eb - 52) := by
      rw [le_div_iff₀ hub, h52]
      calc (2:ℚ) ^ (52 : ℤ) * 2 ^ (eb - 52) = 2 ^ eb := hsplit_b.symm
      _ ≤ b := hble
    have hrne_b : (2 ^ 52 : ℤ) ≤ rne (b / 2 ^ (eb - 52)) := by
      have hfl : (2 ^ 52 : ℤ) ≤ ⌊b / 2 ^ (eb - 52)⌋ := Int.le_floor.mpr hxb
      have h2 := floor_le_rne (b / 2 ^ (eb - 52))
      omega
    have hFb : (2:ℚ) ^ eb ≤ (rne (b / 2 ^ (eb - 52)) : ℚ) * 2 ^ (eb - 52) := by
      have h1 : ((2 ^ 52 : ℤ) : ℚ) ≤ (rne (b / 2 ^ (eb - 52)) : ℚ) := by
        exact_mod_cast hrne_b
      have h2 := mul_le_mul_of_nonneg_right h1 (le_of_lt hub)
      rw [h52] at h2
      rw [hsplit_b]
      exact h2
    have hmid : (2:ℚ) ^ (ea + 1) ≤ 2 ^ eb :=
      zpow_le_zpow_right₀ (by norm_num) (by omega)
    linarith

/-- A positive rational below half the smallest positive subnormal,
`2^(-1075)`, rounds to the float `0.0`. -/
theorem floatRound_eq_zero {q : ℚ} (h0 : 0 < q) (h : q < 2 ^ (-1075 : ℤ)) :
    floatRound q = 0 := by
  have hlog : Int.log 2 q ≤ -1075 := by
    have hm := Int.log_mono_right (b := 2) h0 (le_of_lt h)
    have hz : Int.log 2 ((2:ℚ) ^ (-1075 : ℤ)) = -1075 := by
      have h1 := Int.log_zpow (b := 2) (R := ℚ) (by norm_num) (-1075)
      simpa using h1
    omega
  have he : max (Int.log 2 q) (-1022 : ℤ) = -1022 := max_eq_right (by omega)
  unfold floatRound
  rw [if_neg (not_le.mpr h0), he]
  have hx : q / 2 ^ ((-1022 : ℤ) - 52) < 1 / 2 := by
    rw [div_lt_iff₀ (zpow_pos (by norm_num) _)]
    have hsplit : (1:ℚ) / 2 * 2 ^ ((-1022 : ℤ) - 52) = 2 ^ (-1075 : ℤ) := by
      rw [one_div, ← zpow_neg_one, ← zpow_add₀ (two_ne_zero : (2:ℚ) ≠ 0)]
      congr 1
    rw [hsplit]
    exact h
  have hfloor : ⌊q / 2 ^ ((-1022 : ℤ) - 52)⌋ = 0 := by
    rw [Int.floor_eq_zero_iff, Set.mem_Ico]
    exact ⟨le_of_lt (div_pos h0 (zpow_pos (by norm_num) _)),
      lt_trans hx (by norm_num)⟩
  have hrne : rne (q / 2 ^ ((-1022 : ℤ) - 52)) = 0 := by
    unfold rne
    rw [hfloor]
    simp only [Int.cast_zero, sub_zero]
    rw [if_pos hx]
  rw [hrne]
  simp

/-- `bits_to_target` on the compact encoding `e * 2^24 + m`. -/
theorem bits_to_target_encode (e m : Nat) (he : 3 ≤ e) (hm : m < 2 ^ 24) :
    bits_to_target (e * 2 ^ 24 + m) = .ok (m * 2 ^ (8 * (e - 3))) := by
  show (if (e * 2 ^ 24 + m) >>> 24 < 3 then
      (Except.error "ValueError: negative shift count" : Except String Nat)
    else Except.ok (((e * 2 ^ 24 + m) &&& 0xFFFFFF) *
      (1 <<< (8 * ((e * 2 ^ 24 + m) >>> 24 - 3))))) =
    Except.ok (m * 2 ^ (8 * (e - 3)))
  rw [decode_exponent e m hm, decode_mantissa e m hm,
    if_neg (Nat.not_lt.mpr he), Nat.one_shiftLeft]

/-- `bits_to_difficulty_float` on the compact encoding `e * 2^24 + m`:
the correctly rounded binary64 value of `max_target / target`. -/
theorem bits_to_difficulty_float_encode (e m : Nat) (he : 3 ≤ e)
    (hm : m < 2 ^ 24) (h0 : 0 < m) :
    bits_to_difficulty_float (e * 2 ^ 24 + m) =
      .ok (floatRound ((max_target : ℚ) /
        ((m * 2 ^ (8 * (e - 3)) : Nat) : ℚ))) := by
  have hpow : 0 < 2 ^ (8 * (e - 3)) := Nat.pos_pow_of_pos _ (by norm_num)
  have htpos : 0 < m * 2 ^ (8 * (e - 3)) := Nat.mul_pos h0 hpow
  unfold bits_to_difficulty_float
  rw [bits_to_target_encode e m he hm]
  show (if m * 2 ^ (8 * (e - 3)) = 0 then
      Except.error "ZeroDivisionError: division by zero"
    else Except.ok (floatRound ((max_target : ℚ) /
      ((m * 2 ^ (8 * (e - 3)) : Nat) : ℚ)))) = _
  rw [if_neg (Nat.pos_iff_ne_zero.mp htpos)]

/-- At exponent 200, the exact quotient `max_target / target` is below
`2^(-1075)` (half the smallest positive subnormal) for every positive
mantissa, so the 64-bit float division underflows to `0.0`. -/
theorem difficulty_underflow (m : ℕ) (hm : 0 < m) :
    (max_target : ℚ) / ((m * 2 ^ (8 * (200 - 3)) : ℕ) : ℚ) <
      2 ^ (-1075 : ℤ) := by
  have hden : (0:ℚ) < ((m * 2 ^ (8 * (200 - 3)) : ℕ) : ℚ) := by
    have h1 : 0 < m * 2 ^ (8 * (200 - 3)) :=
      Nat.mul_pos hm (Nat.pos_pow_of_pos _ (by norm_num))
    exact_mod_cast h1
  rw [div_lt_iff₀ hden]
  have hc : ((m * 2 ^ (8 * (200 - 3)) : ℕ) : ℚ) = (m:ℚ) * 2 ^ (1576 : ℤ) := by
    push_cast
    rw [← zpow_natCast (2:ℚ) 1576]
    norm_num
  rw [hc]
  have h1 : (2:ℚ) ^ (-1075 : ℤ) * ((m:ℚ) * 2 ^ (1576:ℤ)) =
      (m:ℚ) * 2 ^ (501:ℤ) := by
    rw [mul_comm ((2:ℚ) ^ (-1075 : ℤ)) _, mul_assoc,
      ← zpow_add₀ (two_ne_zero : (2:ℚ) ≠ 0)]
    norm_num
  rw [h1]
  have h2 : (max_target : ℚ) < 2 ^ (501 : ℤ) := by
    have hn : max_target < 2 ^ 501 := by norm_num [max_target]
    have hc2 : ((2 ^ 501 : ℕ) : ℚ) = (2:ℚ) ^ (501 : ℤ) := by
      push_cast
      rw [← zpow_natCast (2:ℚ) 501]
      norm_num
    rw [← hc2]
    exact_mod_cast hn
  have h3 : (1:ℚ) ≤ (m:ℚ) := by exact_mod_cast hm
  have h4 : (0:ℚ) < 2 ^ (501 : ℤ) := zpow_pos (by norm_num) _
  calc (max_target : ℚ) < 2 ^ (501 : ℤ) := h2
  _ = 1 * 2 ^ (501 : ℤ) := (one_mul _).symm
  _ ≤ (m:ℚ) * 2 ^ (501 : ℤ) := mul_le_mul_of_nonneg_right h3 (le_of_lt h4)

/-- Claim C9 (counterexample): at exponent 200 with mantissas 1 < 2, both
64-bit float difficulties underflow to exactly `0.0`, so the strict
inequality `difficulty(bits1) > difficulty(bits2)` fails on the program. -/
theorem C9_counterexample :
    bits_to_difficulty_float (200 * 2 ^ 24 + 1) = .ok 0 ∧
    bits_to_difficulty_float (200 * 2 ^ 24 + 2) = .ok 0 ∧
    ¬ ∃ d1 d2 : ℚ,
        bits_to_difficulty_float (200 * 2 ^ 24 + 1) = .ok d1 ∧
        bits_to_difficulty_float (200 * 2 ^ 24 + 2) = .ok d2 ∧
        d2 < d1 := by
  have hN : (0 : ℚ) < (max_target : ℚ) := by
    have h : 0 < max_target := by decide
    exact_mod_cast h
  have h1 : bits_to_difficulty_float (200 * 2 ^ 24 + 1) = .ok 0 := by
    rw [bits_to_difficulty_float_encode 200 1 (by norm_num) (by norm_num)
      (by norm_num)]
    have hden : (0:ℚ) < ((1 * 2 ^ (8 * (200 - 3)) : ℕ) : ℚ) := by
      have hp : 0 < 1 * 2 ^ (8 * (200 - 3)) :=
        Nat.mul_pos one_pos (Nat.pos_pow_of_pos _ (by norm_num))
      exact_mod_cast hp
    rw [floatRound_eq_zero (div_pos hN hden) (difficulty_underflow 1 one_pos)]
  have h2 : bits_to_difficulty_float (200 * 2 ^ 24 + 2) = .ok 0 := by
    rw [bits_to_difficulty_float_encode 200 2 (by norm_num) (by norm_num)
      (by norm_num)]
    have hden : (0:ℚ) < ((2 * 2 ^ (8 * (200 - 3)) : ℕ) : ℚ) := by
      have hp : 0 < 2 * 2 ^ (8 * (200 - 3)) :=
        Nat.mul_pos (by norm_num) (Nat.pos_pow_of_pos _ (by norm_num))
      exact_mod_cast hp
    rw [floatRound_eq_zero (div_pos hN hden)
      (difficulty_underflow 2 (by norm_num))]
  refine ⟨h1, h2, ?_⟩
  rintro ⟨d1, d2, hd1, hd2, hlt⟩
  rw [h1] at hd1
  rw [h2] at hd2
  injection hd1 with hh1
  injection hd2 with hh2
  rw [← hh1, ← hh2] at hlt
  exact lt_irrefl 0 hlt

/-- Claim C9 (amended): for a fixed exponent `e ≥ 3` and 24-bit mantissas
`0 < m1 < m2`, the targets strictly increase, and the 64-bit float
difficulties are antitone, `difficulty(bits2) ≤ difficulty(bits1)` — the
inequality is not strict in general, because rounding can collapse the two
quotients to the same float (both underflow to `0.0` at exponent 200). -/
theorem C9_difficulty_antitone (e m1 m2 : Nat) (he : 3 ≤ e)
    (_he2 : e < 256) (h0 : 0 < m1) (h12 : m1 < m2) (h24 : m2 < 2 ^ 24) :
    ∃ t1 t2 : Nat, ∃ d1 d2 : ℚ,
      bits_to_target (e * 2 ^ 24 + m1) = .ok t1 ∧
      bits_to_target (e * 2 ^ 24 + m2) = .ok t2 ∧
      t1 < t2 ∧
      bits_to_difficulty_float (e * 2 ^ 24 + m1) = .ok d1 ∧
      bits_to_difficulty_float (e * 2 ^ 24 + m2) = .ok d2 ∧
      d2 ≤ d1 := by
  have h124 : m1 < 2 ^ 24 := lt_trans h12 h24
  have hpow : 0 < 2 ^ (8 * (e - 3)) := Nat.pos_pow_of_pos _ (by norm_num)
  have htlt : m1 * 2 ^ (8 * (e - 3)) < m2 * 2 ^ (8 * (e - 3)) :=
    mul_lt_mul_of_pos_right h12 hpow
  have ht1pos : 0 < m1 * 2 ^ (8 * (e - 3)) := Nat.mul_pos h0 hpow
  have ht2pos : 0 < m2 * 2 ^ (8 * (e - 3)) := Nat.mul_pos (lt_trans h0 h12) hpow
  have hN : (0 : ℚ) < (max_target : ℚ) := by
    have h : 0 < max_target := by decide
    exact_mod_cast h
  have hc1 : (0 : ℚ) < ((m1 * 2 ^ (8 * (e - 3)) : Nat) : ℚ) := by
    exact_mod_cast ht1pos
  have hc2 : (0 : ℚ) < ((m2 * 2 ^ (8 * (e - 3)) : Nat) : ℚ) := by
    exact_mod_cast ht2pos
  have hcle : ((m1 * 2 ^ (8 * (e - 3)) : Nat) : ℚ) ≤
      ((m2 * 2 ^ (8 * (e - 3)) : Nat) : ℚ) := by
    exact_mod_cast le_of_lt htlt
  have hqle : (max_target : ℚ) / ((m2 * 2 ^ (8 * (e - 3)) : Nat) : ℚ) ≤
      (max_target : ℚ) / ((m1 * 2 ^ (8 * (e - 3)) : Nat) : ℚ) :=
    div_le_div_of_nonneg_left (le_of_lt hN) hc1 hcle
  have hq2pos : 0 < (max_target : ℚ) / ((m2 * 2 ^ (8 * (e - 3)) : Nat) : ℚ) :=
    div_pos hN hc2
  exact ⟨_, _, _, _, bits_to_target_encode e m1 he h124,
    bits_to_target_encode e m2 he h24, htlt,
    bits_to_difficulty_float_encode e m1 he h124 h0,
    bits_to_difficulty_float_encode e m2 he h24 (lt_trans h0 h12),
    floatRound_mono hq2pos hqle⟩

/-- Witness for the amended claim C9 at exponent 3, mantissas 1 and 2. -/
theorem C9_difficulty_antitone_witness :
    ((3 : Nat) ≤ 3 ∧ (3 : Nat) < 256 ∧ (0 : Nat) < 1 ∧ (1 : Nat) < 2 ∧
      (2 : Nat) < 2 ^ 24) ∧
    ∃ t1 t2 : Nat, ∃ d1 d2 : ℚ,
      bits_to_target (3 * 2 ^ 24 + 1) = .ok t1 ∧
      bits_to_target (3 * 2 ^ 24 + 2) = .ok t2 ∧
      t1 < t2 ∧
      bits_to_difficulty_float (3 * 2 ^ 24 + 1) = .ok d1 ∧
      bits_to_difficulty_float (3 * 2 ^ 24 + 2) = .ok d2 ∧
      d2 ≤ d1 :=
  ⟨⟨by decide, by decide, by decide, by decide, by decide⟩,
    C9_difficulty_antitone 3 1 2 (by decide) (by decide) (by decide)
      (by decide) (by decide)⟩

/-- The code's trend value is always one of the three expected strings. -/
theorem trend_of_cases (ds : List ℚ) :
    trend_of ds = "increasing" ∨ trend_of ds = "decreasing" ∨
      trend_of ds = "stable" := by
  unfold trend_of
  split
  · exact Or.inl rfl
  · split
    · exact Or.inr (Or.inl rfl)
    · exact Or.inr (Or.inr rfl)

/-- Claim C10: on every successful call, the five difficulty-typed fields
of the summary are all absent or all present together, and the trend is one
of the three expected strings. -/
theorem C10_uniform_presence (blocks : List Block) (s : DifficultySummary)
    (hs : analyze_block_difficulty blocks = .ok s) :
    ((s.current_difficulty = none ∧ s.average_difficulty = none ∧
      s.min_difficulty = none ∧ s.max_difficulty = none ∧
      s.difficulties_range = none) ∨
     (s.current_difficulty.isSome ∧ s.average_difficulty.isSome ∧
      s.min_difficulty.isSome ∧ s.max_difficulty.isSome ∧
      s.difficulties_range.isSome)) ∧
    (s.trend = "increasing" ∨ s.trend = "decreasing" ∨ s.trend = "stable") := by
  unfold analyze_block_difficulty at hs
  cases hcd : collect_difficulties blocks with
  | error e =>
    rw [hcd] at hs
    exact Except.noConfusion hs
  | ok ds =>
    rw [hcd] at hs
    simp only [Except.map] at hs
    injection hs with h
    subst h
    cases ds with
    | nil => exact ⟨Or.inl ⟨rfl, rfl, rfl, rfl, rfl⟩, trend_of_cases []⟩
    | cons a t => exact ⟨Or.inr ⟨rfl, rfl, rfl, rfl, rfl⟩, trend_of_cases (a :: t)⟩

/-- Witness for claim C10 at the empty input list. -/
theorem C10_uniform_presence_witness :
    (((⟨none, none, none, none, "stable", none⟩ :
        DifficultySummary).current_difficulty = none ∧
      (⟨none, none, none, none, "stable", none⟩ :
        DifficultySummary).average_difficulty = none ∧
      (⟨none, none, none, none, "stable", none⟩ :
        DifficultySummary).min_difficulty = none ∧
      (⟨none, none, none, none, "stable", none⟩ :
        DifficultySummary).max_difficulty = none ∧
      (⟨none, none, none, none, "stable", none⟩ :
        DifficultySummary).difficulties_range = none) ∨
     ((⟨none, none, none, none, "stable", none⟩ :
        DifficultySummary).current_difficulty.isSome ∧
      (⟨none, none, none, none, "stable", none⟩ :
        DifficultySummary).average_difficulty.isSome ∧
      (⟨none, none, none, none, "stable", none⟩ :
        DifficultySummary).min_difficulty.isSome ∧
      (⟨none, none, none, none, "stable", none⟩ :
        DifficultySummary).max_difficulty.isSome ∧
      (⟨none, none, none, none, "stable", none⟩ :
        DifficultySummary).difficulties_range.isSome)) ∧
    ((⟨none, none, none, none, "stable", none⟩ :
        DifficultySummary).trend = "increasing" ∨
     (⟨none, none, none, none, "stable", none⟩ :
        DifficultySummary).trend = "decreasing" ∨
     (⟨none, none, none, none, "stable", none⟩ :
        DifficultySummary).trend = "stable") :=
  C10_uniform_presence [] ⟨none, none, none, none, "stable", none⟩ rfl
